import Mathlib

/-!
Verification of the nosqlite collection storage engine
(`src/nosqlite/nosqlite.py`) against its specification.

The embedding models the Python-2 code shallowly:
* Python values handled by the store are the inductive `PyVal`.
* The pickle serialization used by `_encode_value` / `_decode_value` is an
  external library, so it is modelled from the spec as a token-stream
  serializer with an executable decoder.
* The backing SQL table of a collection is a list of rows `(key, value-blob, ts)`;
  SQL statements (`REPLACE INTO`, `SELECT ... WHERE key in`, `DELETE`,
  `ORDER BY ts`) become the corresponding list operations.
* Fallible Python code (unpacking errors, decode errors, `KeyError`) is
  modelled with `Option` / explicit error results.
-/

set_option maxHeartbeats 1000000

namespace NoSQLite

/-- Python values storable in a collection: `None`, integers, strings,
lists, tuples, and string-keyed dictionaries (the shapes exercised by the
usage examples of the module). -/
inductive PyVal where
  | pyNone : PyVal
  | pyInt (n : Int) : PyVal
  | pyStr (s : String) : PyVal
  | pyList (xs : List PyVal) : PyVal
  | pyTuple (xs : List PyVal) : PyVal
  | pyDict (kvs : List (String × PyVal)) : PyVal

/-- Tokens of the modelled serialization stream (the opaque BLOB column). -/
inductive Tok where
  | tNone : Tok
  | tInt (n : Int) : Tok
  | tStr (s : String) : Tok
  | tList (n : Nat) : Tok
  | tTuple (n : Nat) : Tok
  | tDict (n : Nat) : Tok
deriving DecidableEq, Repr

mutual

/-- Modelled from the spec: `pickle.dumps` (`encode(value) -> blob`), the
serializer behind `_encode_value`; pickle itself is an external library.
Containers are emitted as a count-prefixed header followed by their
serialized members. -/
def encTok : PyVal → List Tok
  | .pyNone => [.tNone]
  | .pyInt n => [.tInt n]
  | .pyStr s => [.tStr s]
  | .pyList xs => Tok.tList xs.length :: encList xs
  | .pyTuple xs => Tok.tTuple xs.length :: encList xs
  | .pyDict kvs => Tok.tDict kvs.length :: encDict kvs

/-- Serialize the members of a list or tuple, in order. -/
def encList : List PyVal → List Tok
  | [] => []
  | v :: vs => encTok v ++ encList vs

/-- Serialize dictionary entries as alternating key token / value stream. -/
def encDict : List (String × PyVal) → List Tok
  | [] => []
  | (k, v) :: kvs => Tok.tStr k :: (encTok v ++ encDict kvs)

end

mutual

/-- Modelled from the spec: `pickle.loads` (`decode(blob) -> value`), the
parser behind `_decode_value`. Fuelled so the recursion is structural;
returns the parsed value and the unconsumed suffix, or `none` on a
malformed stream or exhausted fuel. -/
def decTok : Nat → List Tok → Option (PyVal × List Tok)
  | 0, _ => Option.none
  | _+1, Tok.tNone :: r => some (.pyNone, r)
  | _+1, Tok.tInt n :: r => some (.pyInt n, r)
  | _+1, Tok.tStr s :: r => some (.pyStr s, r)
  | f+1, Tok.tList n :: r =>
      match decList f n r with
      | some (xs, r2) => some (.pyList xs, r2)
      | Option.none => Option.none
  | f+1, Tok.tTuple n :: r =>
      match decList f n r with
      | some (xs, r2) => some (.pyTuple xs, r2)
      | Option.none => Option.none
  | f+1, Tok.tDict n :: r =>
      match decDict f n r with
      | some (kvs, r2) => some (.pyDict kvs, r2)
      | Option.none => Option.none
  | _+1, [] => Option.none

/-- Parse `n` consecutive serialized values. -/
def decList : Nat → Nat → List Tok → Option (List PyVal × List Tok)
  | _, 0, r => some ([], r)
  | 0, _+1, _ => Option.none
  | f+1, n+1, r =>
      match decTok f r with
      | some (v, r2) =>
          match decList f n r2 with
          | some (vs, r3) => some (v :: vs, r3)
          | Option.none => Option.none
      | Option.none => Option.none

/-- Parse `n` consecutive serialized dictionary entries. -/
def decDict : Nat → Nat → List Tok → Option (List (String × PyVal) × List Tok)
  | _, 0, r => some ([], r)
  | 0, _+1, _ => Option.none
  | f+1, n+1, Tok.tStr k :: r =>
      match decTok f r with
      | some (v, r2) =>
          match decDict f n r2 with
          | some (kvs, r3) => some ((k, v) :: kvs, r3)
          | Option.none => Option.none
      | Option.none => Option.none
  | _+1, _+1, _ => Option.none

end

mutual

/-- Fuel sufficient for `decTok` to parse `encTok v`. -/
def fuelTok : PyVal → Nat
  | .pyNone => 1
  | .pyInt _ => 1
  | .pyStr _ => 1
  | .pyList xs => 1 + fuelList xs
  | .pyTuple xs => 1 + fuelList xs
  | .pyDict kvs => 1 + fuelDict kvs

/-- Fuel sufficient for `decList` over `encList xs`. -/
def fuelList : List PyVal → Nat
  | [] => 1
  | v :: vs => 1 + fuelTok v + fuelList vs

/-- Fuel sufficient for `decDict` over `encDict kvs`. -/
def fuelDict : List (String × PyVal) → Nat
  | [] => 1
  | (_, v) :: kvs => 1 + fuelTok v + fuelDict kvs

end

/-- Every value needs at least one unit of fuel. -/
theorem fuelTok_pos (v : PyVal) : 1 ≤ fuelTok v := by
  cases v <;> simp [fuelTok]

/-- Every member list needs at least one unit of fuel. -/
theorem fuelList_pos (xs : List PyVal) : 1 ≤ fuelList xs := by
  match xs with
  | [] => simp [fuelList]
  | v :: vs => simp [fuelList]; omega

/-- Every entry list needs at least one unit of fuel. -/
theorem fuelDict_pos (kvs : List (String × PyVal)) : 1 ≤ fuelDict kvs := by
  match kvs with
  | [] => simp [fuelDict]
  | (k, v) :: kvs => simp [fuelDict]; omega

mutual

/-- With enough fuel, the decoder consumes exactly `encTok v` and
returns `v`, leaving any suffix untouched. -/
theorem decTok_encTok : (v : PyVal) → ∀ (rest : List Tok) (f : Nat),
    fuelTok v ≤ f → decTok f (encTok v ++ rest) = some (v, rest)
  | .pyNone, rest, f, h => by
      obtain ⟨f', rfl⟩ : ∃ g, f = g + 1 := ⟨f - 1, by
        have := fuelTok_pos PyVal.pyNone; omega⟩
      simp [encTok, decTok]
  | .pyInt n, rest, f, h => by
      obtain ⟨f', rfl⟩ : ∃ g, f = g + 1 := ⟨f - 1, by
        have := fuelTok_pos (PyVal.pyInt n); omega⟩
      simp [encTok, decTok]
  | .pyStr s, rest, f, h => by
      obtain ⟨f', rfl⟩ : ∃ g, f = g + 1 := ⟨f - 1, by
        have := fuelTok_pos (PyVal.pyStr s); omega⟩
      simp [encTok, decTok]
  | .pyList xs, rest, f, h => by
      obtain ⟨f', rfl⟩ : ∃ g, f = g + 1 := ⟨f - 1, by
        have := fuelTok_pos (PyVal.pyList xs); omega⟩
      have hxs : fuelList xs ≤ f' := by
        simp only [fuelTok] at h; omega
      simp [encTok, decTok, decList_encList xs rest f' hxs]
  | .pyTuple xs, rest, f, h => by
      obtain ⟨f', rfl⟩ : ∃ g, f = g + 1 := ⟨f - 1, by
        have := fuelTok_pos (PyVal.pyTuple xs); omega⟩
      have hxs : fuelList xs ≤ f' := by
        simp only [fuelTok] at h; omega
      simp [encTok, decTok, decList_encList xs rest f' hxs]
  | .pyDict kvs, rest, f, h => by
      obtain ⟨f', rfl⟩ : ∃ g, f = g + 1 := ⟨f - 1, by
        have := fuelTok_pos (PyVal.pyDict kvs); omega⟩
      have hkvs : fuelDict kvs ≤ f' := by
        simp only [fuelTok] at h; omega
      simp [encTok, decTok, decDict_encDict kvs rest f' hkvs]

/-- With enough fuel, `decList` parses back exactly the members of `xs`. -/
theorem decList_encList : (xs : List PyVal) → ∀ (rest : List Tok) (f : Nat),
    fuelList xs ≤ f → decList f xs.length (encList xs ++ rest) = some (xs, rest)
  | [], rest, f, _ => by simp [encList, decList]
  | v :: vs, rest, f, h => by
      obtain ⟨f', rfl⟩ : ∃ g, f = g + 1 := ⟨f - 1, by
        have := fuelList_pos (v :: vs); omega⟩
      have hv : fuelTok v ≤ f' := by
        simp only [fuelList] at h; omega
      have hvs : fuelList vs ≤ f' := by
        have := fuelTok_pos v
        simp only [fuelList] at h; omega
      have h1 : decTok f' (encTok v ++ (encList vs ++ rest)) =
          some (v, encList vs ++ rest) := decTok_encTok v (encList vs ++ rest) f' hv
      have h2 : decList f' vs.length (encList vs ++ rest) = some (vs, rest) :=
        decList_encList vs rest f' hvs
      simp [encList, decList, h1, h2]

/-- With enough fuel, `decDict` parses back exactly the entries of `kvs`. -/
theorem decDict_encDict : (kvs : List (String × PyVal)) → ∀ (rest : List Tok) (f : Nat),
    fuelDict kvs ≤ f → decDict f kvs.length (encDict kvs ++ rest) = some (kvs, rest)
  | [], rest, f, _ => by simp [encDict, decDict]
  | (k, v) :: kvs, rest, f, h => by
      obtain ⟨f', rfl⟩ : ∃ g, f = g + 1 := ⟨f - 1, by
        have := fuelDict_pos ((k, v) :: kvs); omega⟩
      have hv : fuelTok v ≤ f' := by
        simp only [fuelDict] at h; omega
      have hkvs : fuelDict kvs ≤ f' := by
        have := fuelTok_pos v
        simp only [fuelDict] at h; omega
      have h1 : decTok f' (encTok v ++ (encDict kvs ++ rest)) =
          some (v, encDict kvs ++ rest) := decTok_encTok v (encDict kvs ++ rest) f' hv
      have h2 : decDict f' kvs.length (encDict kvs ++ rest) = some (kvs, rest) :=
        decDict_encDict kvs rest f' hkvs
      simp [encDict, decDict, h1, h2]

end

/-- A serialized value is never the empty stream. -/
theorem encTok_length_pos (v : PyVal) : 1 ≤ (encTok v).length := by
  cases v <;> simp [encTok]

mutual

/-- The fuel needed for a value is bounded by three units per emitted token. -/
theorem fuelTok_le : (v : PyVal) → fuelTok v ≤ 3 * (encTok v).length - 1
  | .pyNone => by simp [fuelTok, encTok]
  | .pyInt n => by simp [fuelTok, encTok]
  | .pyStr s => by simp [fuelTok, encTok]
  | .pyList xs => by
      have h := fuelList_le xs
      simp only [fuelTok, encTok, List.length_cons]
      omega
  | .pyTuple xs => by
      have h := fuelList_le xs
      simp only [fuelTok, encTok, List.length_cons]
      omega
  | .pyDict kvs => by
      have h := fuelDict_le kvs
      simp only [fuelTok, encTok, List.length_cons]
      omega

/-- Fuel bound for member lists. -/
theorem fuelList_le : (xs : List PyVal) → fuelList xs ≤ 3 * (encList xs).length + 1
  | [] => by simp [fuelList, encList]
  | v :: vs => by
      have h1 := fuelTok_le v
      have h2 := fuelList_le vs
      have h3 : 1 ≤ (encTok v).length := encTok_length_pos v
      simp only [fuelList, encList, List.length_append]
      omega

/-- Fuel bound for dictionary entry lists. -/
theorem fuelDict_le : (kvs : List (String × PyVal)) →
    fuelDict kvs ≤ 3 * (encDict kvs).length + 1
  | [] => by simp [fuelDict, encDict]
  | (k, v) :: kvs => by
      have h1 := fuelTok_le v
      have h2 := fuelDict_le kvs
      simp only [fuelDict, encDict, List.length_cons, List.length_append]
      omega

end

namespace NoSQLiteCollection

/-- Method `NoSQLiteCollection._encode_value`: serialize a Python value to the
opaque blob stored in the `value` column (pickle modelled as `encTok`). -/
def _encode_value (v : PyVal) : List Tok := encTok v

/-- Method `NoSQLiteCollection._decode_value`: parse a stored blob back to a Python
value (pickle modelled as `decTok`); `none` models the unpickling error
raised on a corrupt or truncated blob, including a stream with trailing
garbage. -/
def _decode_value (b : List Tok) : Option PyVal :=
  match decTok (3 * b.length) b with
  | some (v, []) => some v
  | _ => Option.none

end NoSQLiteCollection

/-- Decoding an encoded value succeeds and returns it. -/
theorem decode_value_encode_value (v : PyVal) :
    NoSQLiteCollection._decode_value (NoSQLiteCollection._encode_value v) = some v := by
  have hfuel : fuelTok v ≤ 3 * (encTok v).length := by
    have h1 := fuelTok_le v
    have h2 := encTok_length_pos v
    omega
  have h := decTok_encTok v [] (3 * (encTok v).length) hfuel
  simp only [List.append_nil] at h
  simp [NoSQLiteCollection._decode_value, NoSQLiteCollection._encode_value, h]

/-- C2: for every value representable by the serialization format,
`decode(encode(v)) == v` (structural equality): the round-trip law of the
internal `_encode_value` / `_decode_value` pair. -/
theorem C2_roundtrip (v : PyVal) :
    NoSQLiteCollection._decode_value (NoSQLiteCollection._encode_value v) = some v :=
  decode_value_encode_value v

/-- Test `type(t) is dict` in Python 2. -/
def isDictObj : PyVal → Bool
  | .pyDict _ => true
  | _ => false

/-- Test of the Python-2 check over attribute iter (hasattr): lists, tuples
and dicts define the iter attribute; str, numbers and None do not (a
Python-2 str iterates through item access only, so the check is false on
it). -/
def hasIterAttr : PyVal → Bool
  | .pyList _ => true
  | .pyTuple _ => true
  | .pyDict _ => true
  | _ => false

/-- Calling `t.iteritems()` on a dict: its entries as key-value tuples, in order.
Other shapes have no `iteritems` and are unreachable behind the
`type(t) is dict` guard. -/
def dictItems : PyVal → List PyVal
  | .pyDict kvs => kvs.map (fun kv => PyVal.pyTuple [PyVal.pyStr kv.1, kv.2])
  | _ => []

/-- Iterating an object that has `__iter__`: lists and tuples yield their
members; a dict yields its keys (unreachable here, the dict branch of the
normalizer fires first). -/
def iterElems : PyVal → List PyVal
  | .pyList xs => xs
  | .pyTuple xs => xs
  | .pyDict kvs => kvs.map (fun kv => PyVal.pyStr kv.1)
  | _ => []

/-- Run a fallible function over a list, left to right, stopping at the
first failure — the behaviour of a Python loop whose body may raise. -/
def mapOption (f : α → Option β) : List α → Option (List β)
  | [] => some []
  | a :: l =>
      match f a with
      | some b => (mapOption f l).map (fun bs => b :: bs)
      | Option.none => Option.none

/-- One row of the backing table of a collection
`(key TEXT PRIMARY KEY, value BLOB, ts TIMESTAMP)`. Timestamps are the
values of `datetime.datetime.now()`, modelled as naturals. -/
structure Row where
  key : String
  value : List Tok
  ts : Nat

/-- Table contents of a collection, in storage (rowid) order. -/
abbrev Table := List Row

/-- SQL `REPLACE INTO`: the conflicting row (same primary key), if any, is
deleted and the new row inserted with a fresh highest rowid, i.e. at the
end of the table. -/
def replaceInto (rows : Table) (r : Row) : Table :=
  rows.filter (fun x => x.key ≠ r.key) ++ [r]

namespace NoSQLiteCollection

/-- Method `NoSQLiteCollection._e_pluribum_unum`: normalize an argument to an
iterable. A dict yields `t.iteritems()`; an object with `__iter__` is
returned unchanged; any other object is wrapped in a one-element tuple. -/
def _e_pluribum_unum (t : PyVal) : List PyVal :=
  if isDictObj t then dictItems t
  else if hasIterAttr t then iterElems t
  else [t]

/-- The unpacking `for key, value in items` performed by `set`, with the key
bound to the TEXT key column: succeeds on a two-element tuple or list whose
first member is a string; any other element raises, modelled as `none`. -/
def unpackPair : PyVal → Option (String × PyVal)
  | .pyTuple [.pyStr k, v] => some (k, v)
  | .pyList [.pyStr k, v] => some (k, v)
  | _ => Option.none

/-- The row updates `set` performs once `items` is normalized: one
`REPLACE INTO` per pair, in order, all stamped with the one timestamp `d`. -/
def setRows (rows : Table) (ps : List (String × PyVal)) (d : Nat) : Table :=
  ps.foldl (fun acc kv => replaceInto acc ⟨kv.1, _encode_value kv.2, d⟩) rows

/-- Method `NoSQLiteCollection.set`: normalize `items`, capture one timestamp
(`d = datetime.datetime.now()`, an explicit parameter here), upsert every
pair with it, commit. `none` models the exception raised when a normalized
element does not unpack as a key-value pair. -/
def set (rows : Table) (items : PyVal) (d : Nat) : Option Table :=
  (mapOption unpackPair (_e_pluribum_unum items)).map (fun ps => setRows rows ps d)

/-- The key list bound as TEXT parameters of `WHERE key in (...)`: in this
model every normalized element must be a string key; anything else is an
error. -/
def keyParams (l : List PyVal) : Option (List String) :=
  mapOption (fun t => match t with | PyVal.pyStr s => some s | _ => Option.none) l

/-- The result set of `SELECT key,value FROM t WHERE key in (...)`, in
storage order. -/
def selectIn (rows : Table) (ks : List String) : List Row :=
  rows.filter (fun r => r.key ∈ ks)

/-- Decode one selected row into the `(key, decoded value)` pair yielded to
the caller; `none` models the unpickling error on a corrupt blob. -/
def decodeRow (r : Row) : Option (String × PyVal) :=
  (_decode_value r.value).map (fun v => (r.key, v))

/-- Method `NoSQLiteCollection.get`: normalize `keys`, select the matching rows,
decode each and build the result dict (an association list here; the
PRIMARY KEY makes its keys unique). `none` models a raised exception. -/
def get (rows : Table) (keys : PyVal) : Option (List (String × PyVal)) :=
  match keyParams (_e_pluribum_unum keys) with
  | some ks => mapOption decodeRow (selectIn rows ks)
  | Option.none => Option.none

/-- Lookup `d.get(key)` on the dict built by `get`: the binding of `key`, last one
winning as in the Python `dict` constructor. -/
def dictGet (d : List (String × PyVal)) (key : String) : Option PyVal :=
  List.lookup key d.reverse

/-- The `res is None` test in `__getitem__`. -/
def isNoneVal : PyVal → Bool
  | .pyNone => true
  | _ => false

/-- Outcome of `col[key]`: a value, a raised `KeyError`, or a propagated
error from the lookup itself. -/
inductive GetItem where
  | val (v : PyVal) : GetItem
  | keyError : GetItem
  | error : GetItem

/-- Method `NoSQLiteCollection.__getitem__`:
`res = self.get(key).get(key); if res is None: raise KeyError(key)`. -/
def getitem (rows : Table) (key : String) : GetItem :=
  match get rows (PyVal.pyStr key) with
  | Option.none => GetItem.error
  | some d =>
      match dictGet d key with
      | some v => if isNoneVal v then GetItem.keyError else GetItem.val v
      | Option.none => GetItem.keyError

/-- Method `NoSQLiteCollection.size`: `SELECT Count(key)` — keys are never null,
so this is the row count. -/
def size (rows : Table) : Nat := rows.length

/-- Method `NoSQLiteCollection.__contains__`: `SELECT key ... WHERE key=?` and test
whether a row came back. -/
def contains (rows : Table) (key : String) : Bool :=
  rows.any (fun r => r.key = key)

/-- Method `NoSQLiteCollection.delete`: normalize `keys` and
`DELETE FROM t WHERE key in (...)`; no commit is issued by this method, but
the statement itself leaves the table in the filtered state. -/
def delete (rows : Table) (keys : PyVal) : Option Table :=
  (keyParams (_e_pluribum_unum keys)).map (fun ks =>
    rows.filter (fun r => r.key ∉ ks))

/-- Method `NoSQLiteCollection.iteritems`: every row decoded, in storage order. -/
def iteritems (rows : Table) : Option (List (String × PyVal)) :=
  mapOption decodeRow rows

/-- SQL `ORDER BY ts ASC` (or `DESC` when `reverse`) over the backing table. -/
def orderByTs (rows : Table) (reverse : Bool) : Table :=
  if reverse then rows.mergeSort (fun a b => b.ts ≤ a.ts)
  else rows.mergeSort (fun a b => a.ts ≤ b.ts)

/-- Method `NoSQLiteCollection.iter_by_date`: every row decoded, ordered by the
`ts` column, ascending by default and descending when `reverse` is set. -/
def iter_by_date (rows : Table) (reverse : Bool) : Option (List (String × PyVal)) :=
  mapOption decodeRow (orderByTs rows reverse)

end NoSQLiteCollection

/-- The `sqlite_master` catalog of one database file: its named tables, in
creation order. -/
abbrev Catalog := List (String × Table)

namespace NoSQLiteDatabase

/-- Method `NoSQLiteDatabase.get_or_create_collection`: query `sqlite_master` for
the name; when no row comes back, create the three-column table. The
returned handle carries only the shared connection and the collection
name. -/
def get_or_create_collection (db : Catalog) (name : String) : Catalog × String :=
  if (db.filter (fun t => t.1 = name)).length = 0 then (db ++ [(name, [])], name)
  else (db, name)

/-- The table that statements of a handle run against: the catalog entry
carrying the name held by the handle. -/
def catalogGet (db : Catalog) (name : String) : Table :=
  match db with
  | [] => []
  | e :: rest => if e.1 = name then e.2 else catalogGet rest name

/-- Store back the named table after a mutating statement. -/
def catalogPut (db : Catalog) (name : String) (t : Table) : Catalog :=
  db.map (fun e => if e.1 = name then (e.1, t) else e)

/-- Method set issued through a handle: rewrites the table of that handle
inside the shared database file. -/
def setVia (db : Catalog) (handle : String) (items : PyVal) (d : Nat) : Option Catalog :=
  (NoSQLiteCollection.set (catalogGet db handle) items d).map (catalogPut db handle)

/-- Method get issued through a handle. -/
def getVia (db : Catalog) (handle : String) (keys : PyVal) : Option (List (String × PyVal)) :=
  NoSQLiteCollection.get (catalogGet db handle) keys

end NoSQLiteDatabase

/-! ### General list helpers -/

/-- A second filter by `p` makes an earlier filter by an implied `q`
redundant. -/
theorem filter_filter_of_imp {α : Type} {l : List α} {p q : α → Bool}
    (h : ∀ a ∈ l, p a = true → q a = true) :
    (l.filter q).filter p = l.filter p := by
  induction l with
  | nil => rfl
  | cons a l ih =>
      have ih' := ih (fun x hx hpx => h x (List.mem_cons_of_mem _ hx) hpx)
      cases hq : q a with
      | true => simp [List.filter_cons, hq, ih']
      | false =>
          have hp : p a = false := by
            cases hp : p a with
            | false => rfl
            | true =>
                have := h a (List.mem_cons_self a l) hp
                rw [hq] at this
                exact absurd this (by simp)
          simp [List.filter_cons, hq, hp, ih']

/-! ### Normalization lemmas -/

namespace NoSQLiteCollection

/-- A dict input normalizes to its entries as key-value tuples. -/
theorem epu_dict (kvs : List (String × PyVal)) :
    _e_pluribum_unum (PyVal.pyDict kvs) =
      kvs.map (fun kv => PyVal.pyTuple [PyVal.pyStr kv.1, kv.2]) := by
  simp [_e_pluribum_unum, isDictObj, dictItems]

/-- A list input normalizes to itself. -/
theorem epu_list (xs : List PyVal) :
    _e_pluribum_unum (PyVal.pyList xs) = xs := by
  simp [_e_pluribum_unum, isDictObj, hasIterAttr, iterElems]

/-- A tuple input normalizes to itself. -/
theorem epu_tuple (xs : List PyVal) :
    _e_pluribum_unum (PyVal.pyTuple xs) = xs := by
  simp [_e_pluribum_unum, isDictObj, hasIterAttr, iterElems]

/-- A single string key normalizes to a one-element sequence. -/
theorem epu_str (s : String) :
    _e_pluribum_unum (PyVal.pyStr s) = [PyVal.pyStr s] := by
  simp [_e_pluribum_unum, isDictObj, hasIterAttr]

/-- A single integer normalizes to a one-element sequence. -/
theorem epu_int (n : Int) :
    _e_pluribum_unum (PyVal.pyInt n) = [PyVal.pyInt n] := by
  simp [_e_pluribum_unum, isDictObj, hasIterAttr]

/-- Python `None` normalizes to a one-element sequence. -/
theorem epu_none : _e_pluribum_unum PyVal.pyNone = [PyVal.pyNone] := by
  simp [_e_pluribum_unum, isDictObj, hasIterAttr]

/-- Unpacking the tuples a dict was normalized to recovers its entries. -/
theorem mapOption_unpack_pairs (ps : List (String × PyVal)) :
    mapOption unpackPair
      (ps.map (fun kv => PyVal.pyTuple [PyVal.pyStr kv.1, kv.2])) = some ps := by
  induction ps with
  | nil => simp [mapOption]
  | cons kv ps ih => simp [mapOption, unpackPair, ih]

/-- A list of string keys passes parameter binding unchanged. -/
theorem keyParams_strs (ks : List String) :
    keyParams (ks.map PyVal.pyStr) = some ks := by
  induction ks with
  | nil => simp [keyParams, mapOption]
  | cons k ks ih =>
      simp only [keyParams] at ih
      simp [keyParams, mapOption, ih]

/-- Calling `set` on a dict argument always succeeds and performs the row updates. -/
theorem set_dict (rows : Table) (kvs : List (String × PyVal)) (d : Nat) :
    set rows (PyVal.pyDict kvs) d = some (setRows rows kvs d) := by
  simp [set, epu_dict, mapOption_unpack_pairs]

/-- Calling `set` on a list of key-value tuples always succeeds and performs the
row updates. -/
theorem set_pairs (rows : Table) (ps : List (String × PyVal)) (d : Nat) :
    set rows (PyVal.pyList (ps.map (fun kv => PyVal.pyTuple [PyVal.pyStr kv.1, kv.2]))) d
      = some (setRows rows ps d) := by
  simp [set, epu_list, mapOption_unpack_pairs]

/-! ### Upsert lemmas -/

/-- The rows of other keys that survive a `REPLACE INTO`. -/
theorem replaceInto_same_key (rows : Table) (k : String) (b1 b2 : List Tok)
    (t1 t2 : Nat) :
    replaceInto (replaceInto rows ⟨k, b1, t1⟩) ⟨k, b2, t2⟩ =
      rows.filter (fun x => x.key ≠ k) ++ [⟨k, b2, t2⟩] := by
  simp only [replaceInto, List.filter_append]
  rw [filter_filter_of_imp (fun a _ h => h)]
  simp

/-- No row of the replaced key survives the filter of a `REPLACE INTO`. -/
theorem countP_key_filter_ne (rows : Table) (k : String) :
    (rows.filter (fun x => x.key ≠ k)).countP (fun x => x.key = k) = 0 := by
  rw [List.countP_eq_zero]
  intro a ha
  have h2 := (List.mem_filter.mp ha).2
  simp at h2 ⊢
  exact h2

/-- After a `REPLACE INTO`, exactly one row holds the written key. -/
theorem countP_replaceInto (rows : Table) (r : Row) :
    (replaceInto rows r).countP (fun x => x.key = r.key) = 1 := by
  simp [replaceInto, List.countP_append, List.countP_cons, countP_key_filter_ne]

/-- Reading the single key just upserted returns its value. -/
theorem get_single_replaceInto (rows : Table) (k : String) (v : PyVal) (d : Nat) :
    get (replaceInto rows ⟨k, _encode_value v, d⟩) (PyVal.pyList [PyVal.pyStr k]) =
      some [(k, v)] := by
  have hkp : keyParams [PyVal.pyStr k] = some [k] := by
    simpa using keyParams_strs [k]
  have hnil : (rows.filter (fun x => x.key ≠ k)).filter
      (fun r => r.key ∈ ([k] : List String)) = [] := by
    rw [List.filter_eq_nil_iff]
    intro a ha
    have h2 := (List.mem_filter.mp ha).2
    simp at h2 ⊢
    exact h2
  have hsel : selectIn (replaceInto rows ⟨k, _encode_value v, d⟩) [k] =
      [⟨k, _encode_value v, d⟩] := by
    simp [selectIn, replaceInto, List.filter_append, hnil]
  simp [get, epu_list, hkp, hsel, mapOption, decodeRow, decode_value_encode_value]

end NoSQLiteCollection

/-- C1: upserting the same key twice keeps exactly one row for it, leaves
`size()` what it was after the first `set`, and `get([k])` returns the
second value. -/
theorem C1_upsert_in_place (rows : NoSQLite.Table) (k : String) (v1 v2 : PyVal)
    (d1 d2 : Nat) :
    ∃ s1 s2,
      NoSQLiteCollection.set rows (PyVal.pyDict [(k, v1)]) d1 = some s1 ∧
      NoSQLiteCollection.set s1 (PyVal.pyDict [(k, v2)]) d2 = some s2 ∧
      s2.countP (fun r => r.key = k) = 1 ∧
      NoSQLiteCollection.size s2 = NoSQLiteCollection.size s1 ∧
      NoSQLiteCollection.get s2 (PyVal.pyList [PyVal.pyStr k]) = some [(k, v2)] := by
  refine ⟨NoSQLiteCollection.setRows rows [(k, v1)] d1,
    NoSQLiteCollection.setRows (NoSQLiteCollection.setRows rows [(k, v1)] d1) [(k, v2)] d2,
    NoSQLiteCollection.set_dict .., NoSQLiteCollection.set_dict .., ?_, ?_, ?_⟩
  · have h := NoSQLiteCollection.countP_replaceInto
      (NoSQLiteCollection.setRows rows [(k, v1)] d1)
      ⟨k, NoSQLiteCollection._encode_value v2, d2⟩
    simp only [NoSQLiteCollection.setRows, List.foldl_cons, List.foldl_nil] at h ⊢
    exact h
  · show (NoSQLiteCollection.setRows
        (NoSQLiteCollection.setRows rows [(k, v1)] d1) [(k, v2)] d2).length =
      (NoSQLiteCollection.setRows rows [(k, v1)] d1).length
    simp only [NoSQLiteCollection.setRows, List.foldl_cons, List.foldl_nil]
    rw [NoSQLiteCollection.replaceInto_same_key]
    simp [replaceInto]
  · have h := NoSQLiteCollection.get_single_replaceInto
      (NoSQLiteCollection.setRows rows [(k, v1)] d1) k v2 d2
    simpa [NoSQLiteCollection.setRows] using h

namespace NoSQLiteCollection

/-- Rows whose keys lie outside the written batch pass through `setRows`
untouched, order included (`ks` is any superset of the written keys). -/
theorem setRows_filter_notin (ps : List (String × PyVal)) :
    ∀ (rows : Table) (d : Nat) (ks : List String),
    (∀ k ∈ ps.map Prod.fst, k ∈ ks) →
    (setRows rows ps d).filter (fun r => r.key ∉ ks) =
      rows.filter (fun r => r.key ∉ ks) := by
  induction ps with
  | nil => intro rows d ks _; simp [setRows]
  | cons p ps ih =>
      intro rows d ks h
      have hh : ∀ k ∈ ps.map Prod.fst, k ∈ ks := fun k hk => h k (by simp [hk])
      have hp : p.1 ∈ ks := h p.1 (by simp)
      simp only [setRows, List.foldl_cons]
      rw [show (List.foldl (fun acc kv => replaceInto acc ⟨kv.1, _encode_value kv.2, d⟩)
          (replaceInto rows ⟨p.1, _encode_value p.2, d⟩) ps) =
        setRows (replaceInto rows ⟨p.1, _encode_value p.2, d⟩) ps d from rfl]
      rw [ih (replaceInto rows ⟨p.1, _encode_value p.2, d⟩) d ks hh]
      simp only [replaceInto, List.filter_append]
      rw [filter_filter_of_imp (by
        intro a _ hpa
        simp only [decide_eq_true_eq] at hpa ⊢
        intro heq
        exact hpa (heq ▸ hp))]
      simp [hp]

/-- A row that survives `setRows` with a key outside the batch was already
in the table. -/
theorem mem_rows_of_mem_setRows (ps : List (String × PyVal)) (rows : Table)
    (d : Nat) (r : Row) (hr : r ∈ setRows rows ps d)
    (hk : r.key ∉ ps.map Prod.fst) : r ∈ rows := by
  have h := setRows_filter_notin ps rows d (ps.map Prod.fst) (fun k hk => hk)
  have hmem : r ∈ (setRows rows ps d).filter
      (fun r => r.key ∉ ps.map Prod.fst) :=
    List.mem_filter.mpr ⟨hr, by simpa using hk⟩
  rw [h] at hmem
  exact (List.mem_filter.mp hmem).1

/-- A row already in the table with a key outside the batch survives
`setRows`. -/
theorem mem_setRows_of_mem (ps : List (String × PyVal)) (rows : Table)
    (d : Nat) (r : Row) (hr : r ∈ rows)
    (hk : r.key ∉ ps.map Prod.fst) : r ∈ setRows rows ps d := by
  have h := setRows_filter_notin ps rows d (ps.map Prod.fst) (fun k hk => hk)
  have hmem : r ∈ rows.filter (fun r => r.key ∉ ps.map Prod.fst) :=
    List.mem_filter.mpr ⟨hr, by simpa using hk⟩
  rw [← h] at hmem
  exact (List.mem_filter.mp hmem).1

/-- A member of a `REPLACE INTO` result carrying the replaced key is the
replacing row itself. -/
theorem eq_of_mem_replaceInto (rows : Table) (q r : Row)
    (hr : r ∈ replaceInto rows q) (hk : r.key = q.key) : r = q := by
  simp only [replaceInto, List.mem_append, List.mem_singleton] at hr
  rcases hr with h | h
  · have h2 := (List.mem_filter.mp h).2
    simp only [decide_eq_true_eq] at h2
    exact absurd hk h2
  · exact h

/-- Every surviving row whose key was written by the batch carries the
batch timestamp. -/
theorem ts_eq_of_mem_setRows (ps : List (String × PyVal)) :
    ∀ (rows : Table) (d : Nat) (r : Row),
    r ∈ setRows rows ps d → r.key ∈ ps.map Prod.fst → r.ts = d := by
  induction ps with
  | nil => intro rows d r _ hk; simp at hk
  | cons p ps ih =>
      intro rows d r hr hk
      have hr' : r ∈ setRows (replaceInto rows ⟨p.1, _encode_value p.2, d⟩) ps d := by
        simpa only [setRows, List.foldl_cons] using hr
      by_cases hmem : r.key ∈ ps.map Prod.fst
      · exact ih _ d r hr' hmem
      · have hk1 : r.key = p.1 := by
          simp only [List.map_cons, List.mem_cons] at hk
          tauto
        have hr0 : r ∈ replaceInto rows ⟨p.1, _encode_value p.2, d⟩ :=
          mem_rows_of_mem_setRows ps _ d r hr' hmem
        have heq := eq_of_mem_replaceInto _ _ _ hr0 hk1
        rw [heq]

/-- Every key written by the batch has a row after `setRows`. -/
theorem contains_setRows (ps : List (String × PyVal)) :
    ∀ (rows : Table) (d : Nat) (k : String),
    k ∈ ps.map Prod.fst → contains (setRows rows ps d) k = true := by
  induction ps with
  | nil => intro rows d k hk; simp at hk
  | cons p ps ih =>
      intro rows d k hk
      simp only [setRows, List.foldl_cons]
      rw [show (List.foldl (fun acc kv => replaceInto acc ⟨kv.1, _encode_value kv.2, d⟩)
          (replaceInto rows ⟨p.1, _encode_value p.2, d⟩) ps) =
        setRows (replaceInto rows ⟨p.1, _encode_value p.2, d⟩) ps d from rfl]
      by_cases hmem : k ∈ ps.map Prod.fst
      · exact ih _ d k hmem
      · have hk1 : k = p.1 := by
          simp only [List.map_cons, List.mem_cons] at hk
          tauto
        have hr0 : (⟨p.1, _encode_value p.2, d⟩ : Row) ∈
            replaceInto rows ⟨p.1, _encode_value p.2, d⟩ := by
          simp [replaceInto]
        have hr : (⟨p.1, _encode_value p.2, d⟩ : Row) ∈
            setRows (replaceInto rows ⟨p.1, _encode_value p.2, d⟩) ps d :=
          mem_setRows_of_mem ps _ d _ hr0 (by simpa [hk1] using hmem)
        simp only [contains, List.any_eq_true]
        exact ⟨_, hr, by simp [hk1]⟩

/-- Calling `delete` on a list of string keys always succeeds and filters the
table. -/
theorem delete_strs (rows : Table) (ks : List String) :
    delete rows (PyVal.pyList (ks.map PyVal.pyStr)) =
      some (rows.filter (fun r => r.key ∉ ks)) := by
  simp [delete, epu_list, keyParams_strs]

end NoSQLiteCollection

/-- C4: a single `set` call stamps every row it writes with the one
timestamp captured before the batch (modelled by the parameter `d` of
`set`), and a row exists for every written key. -/
theorem C4_batch_timestamp (rows : NoSQLite.Table) (ps : List (String × PyVal))
    (d : Nat) :
    ∃ s, NoSQLiteCollection.set rows
        (PyVal.pyList (ps.map (fun kv => PyVal.pyTuple [PyVal.pyStr kv.1, kv.2]))) d
        = some s ∧
      (∀ r ∈ s, r.key ∈ ps.map Prod.fst → r.ts = d) ∧
      (∀ k ∈ ps.map Prod.fst, NoSQLiteCollection.contains s k = true) :=
  ⟨NoSQLiteCollection.setRows rows ps d, NoSQLiteCollection.set_pairs ..,
    fun r hr hk => NoSQLiteCollection.ts_eq_of_mem_setRows ps rows d r hr hk,
    fun k hk => NoSQLiteCollection.contains_setRows ps rows d k hk⟩

/-- C7: deleting only keys that are not in the collection raises nothing
and leaves the table — hence `size()` — exactly as it was. -/
theorem C7_delete_missing_noop (rows : NoSQLite.Table) (ks : List String)
    (h : ∀ k ∈ ks, NoSQLiteCollection.contains rows k = false) :
    NoSQLiteCollection.delete rows (PyVal.pyList (ks.map PyVal.pyStr)) = some rows := by
  rw [NoSQLiteCollection.delete_strs]
  congr 1
  rw [List.filter_eq_self]
  intro r hr
  simp only [decide_eq_true_eq]
  intro hk
  have hc := h r.key hk
  have : NoSQLiteCollection.contains rows r.key = true := by
    simp only [NoSQLiteCollection.contains, List.any_eq_true]
    exact ⟨r, hr, by simp⟩
  rw [this] at hc
  exact absurd hc (by simp)

/-- Witness for C7 at a concrete one-row collection and two missing keys. -/
theorem C7_delete_missing_noop_witness :
    (∀ k ∈ ["x", "y"], NoSQLiteCollection.contains
      [⟨"a", NoSQLiteCollection._encode_value (PyVal.pyInt 1), 0⟩] k = false) ∧
    NoSQLiteCollection.delete
      [⟨"a", NoSQLiteCollection._encode_value (PyVal.pyInt 1), 0⟩]
      (PyVal.pyList (["x", "y"].map PyVal.pyStr)) =
      some [⟨"a", NoSQLiteCollection._encode_value (PyVal.pyInt 1), 0⟩] :=
  ⟨by decide, C7_delete_missing_noop _ _ (by decide)⟩

/-- C10: mutations touch only the keys they are given — rows with other
keys survive `set` and `delete` with value and timestamp unchanged. -/
theorem C10_frame (rows : NoSQLite.Table) (ps : List (String × PyVal))
    (ks : List String) (d : Nat) :
    (∃ s, NoSQLiteCollection.set rows
        (PyVal.pyList (ps.map (fun kv => PyVal.pyTuple [PyVal.pyStr kv.1, kv.2]))) d
        = some s ∧
      s.filter (fun r => r.key ∉ ps.map Prod.fst) =
        rows.filter (fun r => r.key ∉ ps.map Prod.fst)) ∧
    (∃ t, NoSQLiteCollection.delete rows (PyVal.pyList (ks.map PyVal.pyStr)) = some t ∧
      t.filter (fun r => r.key ∉ ks) = rows.filter (fun r => r.key ∉ ks)) := by
  constructor
  · exact ⟨NoSQLiteCollection.setRows rows ps d, NoSQLiteCollection.set_pairs ..,
      NoSQLiteCollection.setRows_filter_notin ps rows d (ps.map Prod.fst)
        (fun k hk => hk)⟩
  · refine ⟨rows.filter (fun r => r.key ∉ ks), NoSQLiteCollection.delete_strs .., ?_⟩
    exact filter_filter_of_imp (fun a _ h => h)

namespace NoSQLiteCollection

/-- Every stored blob decodes — true of every table written through
`set`, which only stores `_encode_value` output. -/
abbrev StoredOk (rows : Table) : Prop := ∀ r ∈ rows, (decodeRow r).isSome = true

/-- The total decoding of a row, defined under `StoredOk`. -/
def decodeRowD (r : Row) : String × PyVal :=
  (r.key, (_decode_value r.value).getD PyVal.pyNone)

/-- On a table whose blobs all decode, decoding the rows one by one
succeeds and yields the rowwise decodings. -/
theorem mapOption_decodeRow_eq (rows : Table) (h : StoredOk rows) :
    mapOption decodeRow rows = some (rows.map decodeRowD) := by
  induction rows with
  | nil => simp [mapOption]
  | cons r l ih =>
      have hr := h r (List.mem_cons_self r l)
      obtain ⟨p, hp⟩ := Option.isSome_iff_exists.mp hr
      have hl := ih (fun a ha => h a (List.mem_cons_of_mem _ ha))
      obtain ⟨v, hv, hpv⟩ : ∃ v, _decode_value r.value = some v ∧ p = (r.key, v) := by
        simp only [decodeRow, Option.map_eq_some'] at hp
        obtain ⟨a, ha1, ha2⟩ := hp
        exact ⟨a, ha1, ha2.symm⟩
      simp [mapOption, hp, hl, decodeRowD, hv, hpv]

end NoSQLiteCollection

/-- C3: `get(keys)` returns, without error, a mapping holding exactly the
requested keys that exist, each bound to its decoded stored value;
missing keys are omitted with no placeholder, and zero keys give the
empty mapping. -/
theorem C3_get_contract (rows : NoSQLite.Table) (ks : List String)
    (h : NoSQLiteCollection.StoredOk rows) :
    ∃ m, NoSQLiteCollection.get rows (PyVal.pyList (ks.map PyVal.pyStr)) = some m ∧
      m.map Prod.fst = (rows.filter (fun r => r.key ∈ ks)).map Row.key ∧
      (∀ p ∈ m, p.1 ∈ ks ∧ ∃ r ∈ rows, r.key = p.1 ∧
        NoSQLiteCollection._decode_value r.value = some p.2) ∧
      (ks = [] → m = []) := by
  have hsub : NoSQLiteCollection.StoredOk (NoSQLiteCollection.selectIn rows ks) :=
    fun r hr => h r (List.mem_filter.mp hr).1
  have hmo := NoSQLiteCollection.mapOption_decodeRow_eq _ hsub
  refine ⟨(NoSQLiteCollection.selectIn rows ks).map NoSQLiteCollection.decodeRowD,
    ?_, ?_, ?_, ?_⟩
  · simp [NoSQLiteCollection.get, NoSQLiteCollection.epu_list,
      NoSQLiteCollection.keyParams_strs, hmo]
  · simp [List.map_map, NoSQLiteCollection.decodeRowD, NoSQLiteCollection.selectIn,
      Function.comp]
  · intro p hp
    obtain ⟨r, hr, hrp⟩ := List.mem_map.mp hp
    have hrf := List.mem_filter.mp hr
    have hks : r.key ∈ ks := by simpa using hrf.2
    have hsome := hsub r hr
    have hdec : (NoSQLiteCollection._decode_value r.value).isSome = true := by
      simpa [NoSQLiteCollection.decodeRow] using hsome
    obtain ⟨v, hv⟩ := Option.isSome_iff_exists.mp hdec
    have hp1 : p.1 = r.key := by rw [← hrp]; simp [NoSQLiteCollection.decodeRowD]
    have hp2 : p.2 = v := by rw [← hrp]; simp [NoSQLiteCollection.decodeRowD, hv]
    exact ⟨hp1 ▸ hks, r, hrf.1, hp1.symm, by rw [hv, hp2]⟩
  · intro hks
    subst hks
    simp [NoSQLiteCollection.selectIn]

/-- Witness for C3 at the scenario from the spec: two stored keys queried together
with a missing one. -/
theorem C3_get_contract_witness :
    NoSQLiteCollection.StoredOk
      [⟨"pi", NoSQLiteCollection._encode_value (PyVal.pyInt 3), 0⟩,
       ⟨"e", NoSQLiteCollection._encode_value (PyVal.pyInt 2), 0⟩] ∧
    (∃ m, NoSQLiteCollection.get
        [⟨"pi", NoSQLiteCollection._encode_value (PyVal.pyInt 3), 0⟩,
         ⟨"e", NoSQLiteCollection._encode_value (PyVal.pyInt 2), 0⟩]
        (PyVal.pyList (["pi", "missing", "e"].map PyVal.pyStr)) = some m ∧
      m.map Prod.fst =
        ([⟨"pi", NoSQLiteCollection._encode_value (PyVal.pyInt 3), 0⟩,
          ⟨"e", NoSQLiteCollection._encode_value (PyVal.pyInt 2), 0⟩].filter
            (fun r => r.key ∈ ["pi", "missing", "e"])).map Row.key ∧
      (∀ p ∈ m, p.1 ∈ ["pi", "missing", "e"] ∧
        ∃ r ∈ ([⟨"pi", NoSQLiteCollection._encode_value (PyVal.pyInt 3), 0⟩,
                ⟨"e", NoSQLiteCollection._encode_value (PyVal.pyInt 2), 0⟩] :
                 NoSQLite.Table),
          r.key = p.1 ∧ NoSQLiteCollection._decode_value r.value = some p.2) ∧
      ((["pi", "missing", "e"] : List String) = [] → m = [])) :=
  ⟨by decide, C3_get_contract _ _ (by decide)⟩

/-- C6 (code bug evaluation): with the stored value `None` the key is
present — `contains` is true and `get([k])` returns the binding — yet
`col[k]` raises `KeyError`, because `__getitem__` tests `res is None`
instead of testing key membership, contradicting its own docstring
(raise only "if the key does not exist"). -/
theorem C6_none_value_raises :
    NoSQLiteCollection.contains
      [⟨"a", NoSQLiteCollection._encode_value PyVal.pyNone, 0⟩] "a" = true ∧
    NoSQLiteCollection.get
      [⟨"a", NoSQLiteCollection._encode_value PyVal.pyNone, 0⟩]
      (PyVal.pyStr "a") = some [("a", PyVal.pyNone)] ∧
    NoSQLiteCollection.getitem
      [⟨"a", NoSQLiteCollection._encode_value PyVal.pyNone, 0⟩] "a" =
      NoSQLiteCollection.GetItem.keyError :=
  ⟨by decide, rfl, rfl⟩

namespace NoSQLiteCollection

/-- SQL `ORDER BY ts` returns a permutation of the table. -/
theorem orderByTs_perm (rows : Table) (rev : Bool) :
    (orderByTs rows rev).Perm rows := by
  cases rev
  · simpa [orderByTs] using List.mergeSort_perm rows (fun a b => a.ts ≤ b.ts)
  · simpa [orderByTs] using List.mergeSort_perm rows (fun a b => b.ts ≤ a.ts)

/-- SQL `ORDER BY ts ASC` yields non-decreasing timestamps. -/
theorem orderByTs_sorted_asc (rows : Table) :
    (orderByTs rows false).Pairwise (fun a b => a.ts ≤ b.ts) := by
  have h := List.sorted_mergeSort
    (fun (a b c : Row) (h1 : decide (a.ts ≤ b.ts) = true)
        (h2 : decide (b.ts ≤ c.ts) = true) => by
      simp only [decide_eq_true_eq] at h1 h2 ⊢
      omega)
    (fun a b : Row => by simpa using Nat.le_total a.ts b.ts) rows
  have h2 : orderByTs rows false = rows.mergeSort (fun a b => a.ts ≤ b.ts) := by
    simp [orderByTs]
  rw [h2]
  exact h.imp (fun hab => by simpa using hab)

/-- SQL `ORDER BY ts DESC` yields non-increasing timestamps. -/
theorem orderByTs_sorted_desc (rows : Table) :
    (orderByTs rows true).Pairwise (fun a b => b.ts ≤ a.ts) := by
  have h := List.sorted_mergeSort
    (fun (a b c : Row) (h1 : decide (b.ts ≤ a.ts) = true)
        (h2 : decide (c.ts ≤ b.ts) = true) => by
      simp only [decide_eq_true_eq] at h1 h2 ⊢
      omega)
    (fun a b : Row => by simpa using Nat.le_total b.ts a.ts) rows
  have h2 : orderByTs rows true = rows.mergeSort (fun a b => b.ts ≤ a.ts) := by
    simp [orderByTs]
  rw [h2]
  exact h.imp (fun hab => by simpa using hab)

end NoSQLiteCollection

/-- C5: `iter_by_date` yields timestamps non-decreasing by default and
non-increasing with `reverse`, and in both directions it yields the same
multiset of key-value pairs as `iteritems`. -/
theorem C5_order_and_multiset (rows : NoSQLite.Table)
    (h : NoSQLiteCollection.StoredOk rows) :
    (NoSQLiteCollection.orderByTs rows false).Pairwise (fun a b => a.ts ≤ b.ts) ∧
    (NoSQLiteCollection.orderByTs rows true).Pairwise (fun a b => b.ts ≤ a.ts) ∧
    ∃ asc desc items,
      NoSQLiteCollection.iter_by_date rows false = some asc ∧
      NoSQLiteCollection.iter_by_date rows true = some desc ∧
      NoSQLiteCollection.iteritems rows = some items ∧
      Multiset.ofList asc = Multiset.ofList items ∧
      Multiset.ofList desc = Multiset.ofList items := by
  refine ⟨NoSQLiteCollection.orderByTs_sorted_asc rows,
    NoSQLiteCollection.orderByTs_sorted_desc rows, ?_⟩
  have hasc : NoSQLiteCollection.StoredOk (NoSQLiteCollection.orderByTs rows false) :=
    fun r hr => h r ((NoSQLiteCollection.orderByTs_perm rows false).mem_iff.mp hr)
  have hdesc : NoSQLiteCollection.StoredOk (NoSQLiteCollection.orderByTs rows true) :=
    fun r hr => h r ((NoSQLiteCollection.orderByTs_perm rows true).mem_iff.mp hr)
  refine ⟨(NoSQLiteCollection.orderByTs rows false).map NoSQLiteCollection.decodeRowD,
    (NoSQLiteCollection.orderByTs rows true).map NoSQLiteCollection.decodeRowD,
    rows.map NoSQLiteCollection.decodeRowD,
    NoSQLiteCollection.mapOption_decodeRow_eq _ hasc,
    NoSQLiteCollection.mapOption_decodeRow_eq _ hdesc,
    NoSQLiteCollection.mapOption_decodeRow_eq _ h, ?_, ?_⟩
  · exact Multiset.coe_eq_coe.mpr
      ((NoSQLiteCollection.orderByTs_perm rows false).map NoSQLiteCollection.decodeRowD)
  · exact Multiset.coe_eq_coe.mpr
      ((NoSQLiteCollection.orderByTs_perm rows true).map NoSQLiteCollection.decodeRowD)

/-- Witness for C5 at a concrete two-row table with distinct timestamps. -/
theorem C5_order_and_multiset_witness :
    NoSQLiteCollection.StoredOk
      [⟨"a", NoSQLiteCollection._encode_value (PyVal.pyInt 1), 5⟩,
       ⟨"b", NoSQLiteCollection._encode_value (PyVal.pyStr "x"), 3⟩] ∧
    ((NoSQLiteCollection.orderByTs
        [⟨"a", NoSQLiteCollection._encode_value (PyVal.pyInt 1), 5⟩,
         ⟨"b", NoSQLiteCollection._encode_value (PyVal.pyStr "x"), 3⟩] false).Pairwise
        (fun a b => a.ts ≤ b.ts) ∧
     (NoSQLiteCollection.orderByTs
        [⟨"a", NoSQLiteCollection._encode_value (PyVal.pyInt 1), 5⟩,
         ⟨"b", NoSQLiteCollection._encode_value (PyVal.pyStr "x"), 3⟩] true).Pairwise
        (fun a b => b.ts ≤ a.ts) ∧
     ∃ asc desc items,
       NoSQLiteCollection.iter_by_date
         [⟨"a", NoSQLiteCollection._encode_value (PyVal.pyInt 1), 5⟩,
          ⟨"b", NoSQLiteCollection._encode_value (PyVal.pyStr "x"), 3⟩] false = some asc ∧
       NoSQLiteCollection.iter_by_date
         [⟨"a", NoSQLiteCollection._encode_value (PyVal.pyInt 1), 5⟩,
          ⟨"b", NoSQLiteCollection._encode_value (PyVal.pyStr "x"), 3⟩] true = some desc ∧
       NoSQLiteCollection.iteritems
         [⟨"a", NoSQLiteCollection._encode_value (PyVal.pyInt 1), 5⟩,
          ⟨"b", NoSQLiteCollection._encode_value (PyVal.pyStr "x"), 3⟩] = some items ∧
       Multiset.ofList asc = Multiset.ofList items ∧
       Multiset.ofList desc = Multiset.ofList items) :=
  ⟨by decide, C5_order_and_multiset _ (by decide)⟩

namespace NoSQLiteDatabase

/-- A second `get_or_create_collection` with the same name finds the table
and changes nothing. -/
theorem gc_idem (db : Catalog) (name : String) :
    get_or_create_collection (get_or_create_collection db name).1 name =
      get_or_create_collection db name := by
  by_cases h : (db.filter (fun t => t.1 = name)).length = 0
  · simp only [get_or_create_collection, h, if_true]
    have hne : ¬ (((db ++ [((name : String), ([] : Table))]).filter
        (fun t => t.1 = name)).length = 0) := by
      rw [List.filter_append]
      have hone : (([((name : String), ([] : Table))]).filter (fun t => t.1 = name)) =
          [(name, [])] := by simp
      rw [hone]
      simp
    simp [get_or_create_collection, hne]
  · simp [get_or_create_collection, h]

/-- The handle returned is always the requested name. -/
theorem gc_handle (db : Catalog) (name : String) :
    (get_or_create_collection db name).2 = name := by
  by_cases h : (db.filter (fun t => t.1 = name)).length = 0 <;>
    simp [get_or_create_collection, h]

/-- After `get_or_create_collection`, the catalog holds the name. -/
theorem gc_present (db : Catalog) (name : String) :
    ¬ ((((get_or_create_collection db name).1).filter (fun t => t.1 = name)).length = 0) := by
  by_cases h : (db.filter (fun t => t.1 = name)).length = 0
  · simp only [get_or_create_collection, h, if_true]
    rw [List.filter_append]
    have hone : (([((name : String), ([] : Table))]).filter (fun t => t.1 = name)) =
        [(name, [])] := by simp
    rw [hone]
    simp
  · simp only [get_or_create_collection, if_neg h]
    exact h

/-- Writing a present table back and reading it through the same name
round-trips. -/
theorem catalogGet_catalogPut (db : Catalog) (name : String) (T : Table)
    (h : ¬ ((db.filter (fun t => t.1 = name)).length = 0)) :
    catalogGet (catalogPut db name T) name = T := by
  induction db with
  | nil => simp at h
  | cons e db ih =>
      by_cases he : e.1 = name
      · simp [catalogPut, catalogGet, he]
      · have h' : ¬ ((db.filter (fun t => t.1 = name)).length = 0) := by
          simpa [List.filter_cons, he] using h
        have heq : catalogPut (e :: db) name T = e :: catalogPut db name T := by
          simp [catalogPut, he]
        rw [heq]
        simp only [catalogGet]
        rw [if_neg he]
        exact ih h'

end NoSQLiteDatabase

/-- C8: `get_or_create_collection` is idempotent — the second call with the
same name changes nothing and returns the same handle — and the handles of
both calls are bound to the same underlying table: a write through the
first is visible through the second. -/
theorem C8_get_or_create_shared (db : NoSQLite.Catalog) (name k : String)
    (v : PyVal) (d : Nat) :
    NoSQLiteDatabase.get_or_create_collection
        (NoSQLiteDatabase.get_or_create_collection db name).1 name =
      NoSQLiteDatabase.get_or_create_collection db name ∧
    (NoSQLiteDatabase.get_or_create_collection db name).2 = name ∧
    ∃ db2,
      NoSQLiteDatabase.setVia (NoSQLiteDatabase.get_or_create_collection db name).1
        (NoSQLiteDatabase.get_or_create_collection db name).2
        (PyVal.pyDict [(k, v)]) d = some db2 ∧
      NoSQLiteDatabase.getVia db2
        (NoSQLiteDatabase.get_or_create_collection
          (NoSQLiteDatabase.get_or_create_collection db name).1 name).2
        (PyVal.pyList [PyVal.pyStr k]) = some [(k, v)] := by
  refine ⟨NoSQLiteDatabase.gc_idem db name, NoSQLiteDatabase.gc_handle db name, ?_⟩
  rw [NoSQLiteDatabase.gc_idem db name, NoSQLiteDatabase.gc_handle db name]
  set db1 := (NoSQLiteDatabase.get_or_create_collection db name).1 with hdb1
  set T0 := NoSQLiteDatabase.catalogGet db1 name with hT0
  refine ⟨NoSQLiteDatabase.catalogPut db1 name
      (NoSQLiteCollection.setRows T0 [(k, v)] d), ?_, ?_⟩
  · simp [NoSQLiteDatabase.setVia, NoSQLiteCollection.set_dict]
  · have hpres := NoSQLiteDatabase.gc_present db name
    have hget := NoSQLiteDatabase.catalogGet_catalogPut db1 name
      (NoSQLiteCollection.setRows T0 [(k, v)] d) hpres
    simp only [NoSQLiteDatabase.getVia, hget]
    have h := NoSQLiteCollection.get_single_replaceInto T0 k v d
    simpa [NoSQLiteCollection.setRows] using h

/-- C9: the normalization helper behind `set`, `get` and `delete` maps a
dict to the iterable of its key-value pairs, passes an iterable (list or
tuple) through unchanged, and wraps any scalar — including a single string
key — into a one-element sequence. -/
theorem C9_normalization :
    (∀ kvs : List (String × PyVal),
      NoSQLiteCollection._e_pluribum_unum (PyVal.pyDict kvs) =
        kvs.map (fun kv => PyVal.pyTuple [PyVal.pyStr kv.1, kv.2])) ∧
    (∀ xs : List PyVal,
      NoSQLiteCollection._e_pluribum_unum (PyVal.pyList xs) = xs) ∧
    (∀ xs : List PyVal,
      NoSQLiteCollection._e_pluribum_unum (PyVal.pyTuple xs) = xs) ∧
    (∀ s : String,
      NoSQLiteCollection._e_pluribum_unum (PyVal.pyStr s) = [PyVal.pyStr s]) ∧
    (∀ n : Int,
      NoSQLiteCollection._e_pluribum_unum (PyVal.pyInt n) = [PyVal.pyInt n]) ∧
    NoSQLiteCollection._e_pluribum_unum PyVal.pyNone = [PyVal.pyNone] :=
  ⟨NoSQLiteCollection.epu_dict, NoSQLiteCollection.epu_list,
    NoSQLiteCollection.epu_tuple, NoSQLiteCollection.epu_str,
    NoSQLiteCollection.epu_int, NoSQLiteCollection.epu_none⟩

end NoSQLite
